import Mathlib

/-!
Verification of the `useQueryParam` React hook (src/hooks/useQueryParam.js,
published in the post at src/content/posts/2019-09-05~hmc-bnn/hmc-bnn.mdx).

Strings are modelled as lists of bytes (`List Nat`, each `< 256`), i.e. the
UTF-8 byte sequence of the JS string.  The browser's `URLSearchParams` is
modelled by the WHATWG application/x-www-form-urlencoded parser and
serializer over those byte lists, and the browser session history by a
stack of back entries plus a current entry.
-/

namespace UseQueryParam

abbrev Bytes := List Nat

/-- Byte constant for the ampersand separator. -/
def amp : Nat := 38

/-- Byte constant for the equals sign. -/
def eqB : Nat := 61

/-- Byte constant for the question mark. -/
def qmark : Nat := 63

/-- Byte constant for the plus sign. -/
def plusB : Nat := 43

/-- Byte constant for the percent sign. -/
def pctB : Nat := 37

/-- Byte constant for the space. -/
def spaceB : Nat := 32

/-- Byte constant for the slash. -/
def slashB : Nat := 47

/-- The byte sequence of an ASCII Lean string literal, used for concrete
examples. -/
def strB (s : String) : Bytes := s.data.map Char.toNat

/-- A byte list is valid when every entry is an actual byte. -/
def Valid (s : Bytes) : Prop := ∀ b ∈ s, b < 256

instance (s : Bytes) : Decidable (Valid s) :=
  List.decidableBAll (fun b => b < 256) s

/-! ## The urlencoded codec (the browser's URLSearchParams) -/

/-- Numeric value of an ASCII hex digit, if it is one. -/
def hexVal? (b : Nat) : Option Nat :=
  if 48 ≤ b ∧ b ≤ 57 then some (b - 48)
  else if 65 ≤ b ∧ b ≤ 70 then some (b - 55)
  else if 97 ≤ b ∧ b ≤ 102 then some (b - 87)
  else none

/-- Upper-case ASCII hex digit of a nibble. -/
def hexUpper (n : Nat) : Nat := if n < 10 then 48 + n else 55 + n

/-- Bytes the urlencoded serializer leaves unescaped:
ASCII alphanumerics and `*`, `-`, `.`, `_`. -/
def isSafeByte (b : Nat) : Bool :=
  b == 42 || b == 45 || b == 46 || b == 95 ||
  (decide (48 ≤ b) && decide (b ≤ 57)) ||
  (decide (65 ≤ b) && decide (b ≤ 90)) ||
  (decide (97 ≤ b) && decide (b ≤ 122))

/-- urlencoded serialization of one byte: space becomes `+`, safe bytes are
kept, everything else is percent-escaped. -/
def encodeByte (b : Nat) : Bytes :=
  if b = spaceB then [plusB]
  else if isSafeByte b then [b]
  else [pctB, hexUpper (b / 16), hexUpper (b % 16)]

/-- urlencoded serialization of a byte string. -/
def percentEncode : Bytes → Bytes
  | [] => []
  | b :: rest => encodeByte b ++ percentEncode rest

/-- First decoding phase of the urlencoded parser: `+` becomes space. -/
def plusToSpace : Bytes → Bytes
  | [] => []
  | b :: rest => (if b = plusB then spaceB else b) :: plusToSpace rest

/-- Worker for `percentDecode`, structurally recursive on a fuel bound
that dominates the input length. -/
def pctGo : Nat → Bytes → Bytes
  | _, [] => []
  | 0, s => s
  | fuel + 1, b :: rest =>
    if b = pctB then
      match rest with
      | h1 :: h2 :: rest2 =>
        match hexVal? h1, hexVal? h2 with
        | some v1, some v2 => (16 * v1 + v2) :: pctGo fuel rest2
        | _, _ => b :: pctGo fuel rest
      | _ => b :: pctGo fuel rest
    else b :: pctGo fuel rest

/-- Second decoding phase: `%XY` with two hex digits becomes a byte,
anything else is kept verbatim. -/
def percentDecode (s : Bytes) : Bytes := pctGo s.length s

/-- Full urlencoded decoding of one name or value. -/
def decodeComponent (s : Bytes) : Bytes := percentDecode (plusToSpace s)

/-- Everything before the first occurrence of byte `a`. -/
def takeUntil (a : Nat) : Bytes → Bytes
  | [] => []
  | b :: rest => if b = a then [] else b :: takeUntil a rest

/-- Everything from the first occurrence of byte `a` on (empty if absent). -/
def dropUntil (a : Nat) : Bytes → Bytes
  | [] => []
  | b :: rest => if b = a then b :: rest else dropUntil a rest

/-- Split on the ampersand separator (no separator gives one segment). -/
def splitAmp : Bytes → List Bytes
  | [] => [[]]
  | b :: rest =>
    if b = amp then [] :: splitAmp rest
    else
      match splitAmp rest with
      | [] => [[b]]
      | s :: ss => (b :: s) :: ss

/-- The urlencoded parser skips empty segments. -/
def nonEmptySegs : List Bytes → List Bytes
  | [] => []
  | s :: rest => if s = [] then nonEmptySegs rest else s :: nonEmptySegs rest

/-- One segment becomes a name/value pair, split at the first `=`
(absent `=` gives an empty value). -/
def parsePair (seg : Bytes) : Bytes × Bytes :=
  (decodeComponent (takeUntil eqB seg),
   decodeComponent ((dropUntil eqB seg).drop 1))

/-- `new URLSearchParams(s)` as an ordered list of name/value pairs. -/
def parseQuery (s : Bytes) : List (Bytes × Bytes) :=
  (nonEmptySegs (splitAmp s)).map parsePair

/-- Serialization of one pair. -/
def encPair (p : Bytes × Bytes) : Bytes :=
  percentEncode p.1 ++ eqB :: percentEncode p.2

/-- `URLSearchParams.prototype.toString`. -/
def serializeQuery : List (Bytes × Bytes) → Bytes
  | [] => []
  | [p] => encPair p
  | p :: q :: rest => encPair p ++ amp :: serializeQuery (q :: rest)

/-- `URLSearchParams.prototype.get`: value of the first pair with the given
name, `null` (`none`) if absent. -/
def getParam (key : Bytes) : List (Bytes × Bytes) → Option Bytes
  | [] => none
  | (k, v) :: rest => if k = key then some v else getParam key rest

/-- `URLSearchParams.prototype.delete`: remove every pair with the name. -/
def deleteParam (key : Bytes) : List (Bytes × Bytes) → List (Bytes × Bytes)
  | [] => []
  | (k, v) :: rest =>
    if k = key then deleteParam key rest else (k, v) :: deleteParam key rest

/-- `URLSearchParams.prototype.set`: overwrite the first pair with the name
in place and drop the others, else append at the end. -/
def setParam (key value : Bytes) : List (Bytes × Bytes) → List (Bytes × Bytes)
  | [] => [(key, value)]
  | (k, v) :: rest =>
    if k = key then (key, value) :: deleteParam key rest
    else (k, v) :: setParam key value rest

/-- The sublist of pairs carrying the given name (order kept). -/
def pairsFor (key : Bytes) : List (Bytes × Bytes) → List (Bytes × Bytes)
  | [] => []
  | (k, v) :: rest =>
    if k = key then (k, v) :: pairsFor key rest else pairsFor key rest

/-- The sublist of pairs carrying any other name (order kept). -/
def pairsNot (key : Bytes) : List (Bytes × Bytes) → List (Bytes × Bytes)
  | [] => []
  | (k, v) :: rest =>
    if k = key then pairsNot key rest else (k, v) :: pairsNot key rest

/-! ## The hook itself -/

/-- The JS `value` argument: `undefined`, `null`, or a string. -/
inductive QueryValue where
  | undef
  | null
  | str (s : Bytes)

/-- The `historyState` option: which history commit method is used. -/
inductive HistoryState where
  | replace
  | push
  deriving DecidableEq

/-- The `options` object; absent fields are `none` and take their defaults
inside `handleParam` by destructuring. -/
structure BindingOptions where
  historyState : Option HistoryState := none
  nullDeletes : Option Bool := none

/-- JS object spread of two options objects: fields present in the second
win. -/
def mergeOptions (base ovr : BindingOptions) : BindingOptions where
  historyState :=
    match ovr.historyState with
    | some x => some x
    | none => base.historyState
  nullDeletes :=
    match ovr.nullDeletes with
    | some x => some x
    | none => base.nullDeletes

/-- The parts of `location` the hook reads: `location.pathname` and
`location.search` (the latter empty or starting with a question mark). -/
structure Location where
  pathname : Bytes
  search : Bytes

/-- What a `handleParam` call produces: the returned value and the `target`
URL it commits to history. -/
structure HandleResult where
  resolvedValue : Option Bytes
  target : Bytes

/-- `location.pathname.replace` with the regex that drops one trailing
slash. -/
def stripTrailingSlash (p : Bytes) : Bytes :=
  if p.getLast? = some slashB then p.dropLast else p

/-- The `URLSearchParams` constructor strips one leading question mark. -/
def stripLeadQ : Bytes → Bytes
  | [] => []
  | b :: rest => if b = qmark then rest else b :: rest

/-- The byte string of the JS string `"null"`, written by
`params.set(key, null)` through stringification. -/
def nullStr : Bytes := strB "null"

/-- The pure part of `handleParam` from src/hooks/useQueryParam.js: parse
`location.search`, read the key when `value` is `undefined`, delete on
`null` when `nullDeletes` holds (else `set` stringifies `null`), otherwise
set, and rebuild the target URL from the trailing-slash-stripped pathname
and the re-serialized query. -/
def handleParam (loc : Location) (key : Bytes) (value : QueryValue)
    (options : BindingOptions) : HandleResult :=
  let nullDeletes := options.nullDeletes.getD true
  let params := parseQuery (stripLeadQ loc.search)
  let v : Option Bytes :=
    match value with
    | .undef => getParam key params
    | .null => none
    | .str s => some s
  let params2 :=
    match v with
    | none => if nullDeletes then deleteParam key params
              else setParam key nullStr params
    | some s => setParam key s params
  let qs := serializeQuery params2
  { resolvedValue := v
    target := stripTrailingSlash loc.pathname ++
      (if qs = [] then [] else qmark :: qs) }

/-- The browser session history: earlier entries (most recent first) and
the current entry's URL. -/
structure History where
  back : List Bytes
  current : Bytes
  deriving DecidableEq

/-- Number of entries the history holds. -/
def entryCount (h : History) : Nat := h.back.length + 1

/-- `history.replaceState` / `history.pushState` with the target URL. -/
def commit (h : History) (mode : HistoryState) (target : Bytes) : History :=
  match mode with
  | .replace => { back := h.back, current := target }
  | .push => { back := h.current :: h.back, current := target }

/-- `handleParam` including its unconditional history commit
(`history[historyState + 'State'](...)`). -/
def handleParamH (loc : Location) (hist : History) (key : Bytes)
    (value : QueryValue) (options : BindingOptions) :
    HandleResult × History :=
  let r := handleParam loc key value options
  (r, commit hist (options.historyState.getD .replace) r.target)

/-- The state half of the hook: the value `useState` holds. -/
structure Binding where
  param : Option Bytes

/-- `useQueryParam`'s initialization: `useState(handleParam(key, value,
options))`, with the history commit `handleParam` performs. -/
def useQueryParam (loc : Location) (hist : History) (key : Bytes)
    (value : QueryValue) (options : BindingOptions) : Binding × History :=
  let p := handleParamH loc hist key value options
  (⟨p.1.resolvedValue⟩, p.2)

/-- The setter the hook returns: `(newValue, override) =>
setParam(handleParam(key, newValue, { ...options, ...override }))`. -/
def setQueryParam (loc : Location) (hist : History) (key : Bytes)
    (options : BindingOptions) (newValue : QueryValue)
    (override : BindingOptions) : Binding × History :=
  let p := handleParamH loc hist key newValue (mergeOptions options override)
  (⟨p.1.resolvedValue⟩, p.2)

/-! ## The spec's `resolve` view on whole URL strings -/

/-- `location.pathname` of a path-plus-query URL string: everything before
the first question mark. -/
def urlPathname (u : Bytes) : Bytes := takeUntil qmark u

/-- `location.search` of a path-plus-query URL string: everything from the
first question mark on, empty when there is none. -/
def urlSearch (u : Bytes) : Bytes := dropUntil qmark u

/-- The spec's pure operation `resolve(url, key, requestedValue, options)`:
`handleParam` run on the URL split into pathname and search. -/
def resolve (u : Bytes) (key : Bytes) (value : QueryValue)
    (options : BindingOptions) : HandleResult :=
  handleParam ⟨urlPathname u, urlSearch u⟩ key value options

/-- The parsed query mapping of a URL string. -/
def parseU (u : Bytes) : List (Bytes × Bytes) :=
  parseQuery (stripLeadQ (urlSearch u))

/-- A requested value is valid when its string payload, if any, is made of
actual bytes. -/
def ValidQV : QueryValue → Prop
  | .str s => Valid s
  | _ => True


/-! ## Lemmas about hex digits and byte escaping -/

theorem hexVal_hexUpper (n : Nat) (h : n < 16) : hexVal? (hexUpper n) = some n := by
  interval_cases n <;> rfl

theorem hexVal_lt {b v : Nat} (h : hexVal? b = some v) : v < 16 := by
  unfold hexVal? at h
  split at h
  · injection h with h; omega
  · split at h
    · injection h with h; omega
    · split at h
      · injection h with h; omega
      · exact absurd h (by simp)

theorem hexUpper_props (n : Nat) :
    hexUpper n ≠ amp ∧ hexUpper n ≠ eqB ∧ hexUpper n ≠ plusB ∧
      hexUpper n ≠ pctB := by
  unfold hexUpper amp eqB plusB pctB
  split <;> omega

theorem isSafeByte_props {b : Nat} (h : isSafeByte b = true) :
    b ≠ amp ∧ b ≠ eqB ∧ b ≠ plusB ∧ b ≠ pctB ∧ b ≠ spaceB := by
  simp only [isSafeByte, Bool.or_eq_true, Bool.and_eq_true, beq_iff_eq,
    decide_eq_true_eq] at h
  unfold amp eqB plusB pctB spaceB
  omega

theorem mem_encodeByte_ne {c b : Nat} (h : c ∈ encodeByte b) :
    c ≠ amp ∧ c ≠ eqB := by
  unfold encodeByte at h
  split at h
  · simp only [List.mem_singleton] at h
    subst h
    exact ⟨by decide, by decide⟩
  · split at h
    · next hsafe =>
      simp only [List.mem_singleton] at h
      subst h
      obtain ⟨h1, h2, _⟩ := isSafeByte_props hsafe
      exact ⟨h1, h2⟩
    · simp only [List.mem_cons, List.mem_singleton, List.not_mem_nil,
        or_false] at h
      rcases h with h | h | h
      · subst h; exact ⟨by decide, by decide⟩
      · subst h; exact ⟨(hexUpper_props _).1, (hexUpper_props _).2.1⟩
      · subst h; exact ⟨(hexUpper_props _).1, (hexUpper_props _).2.1⟩

theorem mem_percentEncode_ne {c : Nat} {s : Bytes} (h : c ∈ percentEncode s) :
    c ≠ amp ∧ c ≠ eqB := by
  induction s with
  | nil => simp [percentEncode] at h
  | cons b rest ih =>
    simp only [percentEncode, List.mem_append] at h
    rcases h with h | h
    · exact mem_encodeByte_ne h
    · exact ih h

/-! ## Percent decoding steps and the encode/decode round trip -/

theorem pctGo_nil (n : Nat) : pctGo n [] = [] := by
  cases n <;> rfl

theorem pctGo_cons_ne {b : Nat} (hb : b ≠ pctB) (n : Nat) (l : Bytes) :
    pctGo (n + 1) (b :: l) = b :: pctGo n l := by
  simp only [pctGo, if_neg hb]

theorem pctGo_pct_hex {h1 h2 v1 v2 : Nat} (hx : hexVal? h1 = some v1)
    (hy : hexVal? h2 = some v2) (n : Nat) (l : Bytes) :
    pctGo (n + 1) (pctB :: h1 :: h2 :: l) = (16 * v1 + v2) :: pctGo n l := by
  simp only [pctGo, hx, hy, eq_self_iff_true, if_true]

theorem pctGo_pct_bad {h1 h2 : Nat}
    (hbad : hexVal? h1 = none ∨ hexVal? h2 = none) (n : Nat) (l : Bytes) :
    pctGo (n + 1) (pctB :: h1 :: h2 :: l) = pctB :: pctGo n (h1 :: h2 :: l) := by
  rcases hx : hexVal? h1 with _ | v1 <;> rcases hy : hexVal? h2 with _ | v2 <;>
    simp only [pctGo, hx, hy, eq_self_iff_true, if_true]
  rcases hbad with h | h
  · rw [hx] at h; exact absurd h (by simp)
  · rw [hy] at h; exact absurd h (by simp)

theorem pctGo_pct_one (n h1 : Nat) :
    pctGo (n + 1) [pctB, h1] = pctB :: pctGo n [h1] := by
  simp only [pctGo, eq_self_iff_true, if_true]

theorem pctGo_pct_zero (n : Nat) :
    pctGo (n + 1) [pctB] = pctB :: pctGo n [] := by
  simp only [pctGo, eq_self_iff_true, if_true]

theorem pctGo_succ (n : Nat) : ∀ s : Bytes, s.length ≤ n →
    pctGo (n + 1) s = pctGo n s := by
  induction n with
  | zero =>
    intro s hs
    have hnil : s = [] := List.eq_nil_of_length_eq_zero (Nat.le_zero.mp hs)
    subst hnil
    rfl
  | succ n ih =>
    intro s hs
    cases s with
    | nil => rw [pctGo_nil, pctGo_nil]
    | cons b rest =>
      simp only [List.length_cons, Nat.add_le_add_iff_right] at hs
      by_cases hb : b = pctB
      · subst hb
        cases rest with
        | nil => rw [pctGo_pct_zero, pctGo_pct_zero, pctGo_nil, pctGo_nil]
        | cons h1 t =>
          cases t with
          | nil => rw [pctGo_pct_one, pctGo_pct_one, ih _ hs]
          | cons h2 rest2 =>
            rcases hx : hexVal? h1 with _ | v1
            · rw [pctGo_pct_bad (Or.inl hx), pctGo_pct_bad (Or.inl hx),
                ih _ hs]
            · rcases hy : hexVal? h2 with _ | v2
              · rw [pctGo_pct_bad (Or.inr hy), pctGo_pct_bad (Or.inr hy),
                  ih _ hs]
              · rw [pctGo_pct_hex hx hy, pctGo_pct_hex hx hy,
                  ih rest2 (by simp only [List.length_cons] at hs; omega)]
      · rw [pctGo_cons_ne hb, pctGo_cons_ne hb, ih _ hs]

theorem pctGo_eq_percentDecode : ∀ (n : Nat) (s : Bytes), s.length ≤ n →
    pctGo n s = percentDecode s := by
  intro n
  induction n with
  | zero =>
    intro s hs
    have hnil : s = [] := List.eq_nil_of_length_eq_zero (Nat.le_zero.mp hs)
    subst hnil
    rfl
  | succ n ih =>
    intro s hs
    rcases Nat.lt_or_ge n s.length with h | h
    · have hlen : s.length = n + 1 := by omega
      unfold percentDecode
      rw [hlen]
    · rw [pctGo_succ n s h, ih s h]

theorem percentDecode_cons_ne {b : Nat} (hb : b ≠ pctB) (l : Bytes) :
    percentDecode (b :: l) = b :: percentDecode l := by
  show pctGo (l.length + 1) (b :: l) = _
  rw [pctGo_cons_ne hb]
  rfl

theorem percentDecode_pct {h1 h2 v1 v2 : Nat} (hx : hexVal? h1 = some v1)
    (hy : hexVal? h2 = some v2) (l : Bytes) :
    percentDecode (pctB :: h1 :: h2 :: l) = (16 * v1 + v2) :: percentDecode l := by
  show pctGo (l.length + 2 + 1) (pctB :: h1 :: h2 :: l) = _
  rw [pctGo_pct_hex hx hy]
  rw [pctGo_eq_percentDecode (l.length + 2) l (by omega)]

theorem plusToSpace_append (xs ys : Bytes) :
    plusToSpace (xs ++ ys) = plusToSpace xs ++ plusToSpace ys := by
  induction xs with
  | nil => rfl
  | cons b rest ih => simp [plusToSpace, ih]

theorem decode_encodeByte (b : Nat) (hb : b < 256) (rest : Bytes) :
    percentDecode (plusToSpace (encodeByte b ++ rest))
      = b :: percentDecode (plusToSpace rest) := by
  rw [plusToSpace_append]
  unfold encodeByte
  by_cases hsp : b = spaceB
  · rw [if_pos hsp]
    show percentDecode ((if plusB = plusB then spaceB else plusB) ::
      plusToSpace rest) = _
    rw [if_pos rfl, percentDecode_cons_ne (by decide)]
    rw [hsp]
  · rw [if_neg hsp]
    by_cases hsafe : isSafeByte b
    · rw [if_pos hsafe]
      obtain ⟨_, _, hp, hq, _⟩ := isSafeByte_props hsafe
      show percentDecode ((if b = plusB then spaceB else b) ::
        plusToSpace rest) = _
      rw [if_neg hp, percentDecode_cons_ne hq]
    · rw [if_neg hsafe]
      have e1 : hexUpper (b / 16) ≠ plusB := (hexUpper_props _).2.2.1
      have e2 : hexUpper (b % 16) ≠ plusB := (hexUpper_props _).2.2.1
      show percentDecode ((if pctB = plusB then spaceB else pctB) ::
        (if hexUpper (b / 16) = plusB then spaceB else hexUpper (b / 16)) ::
        (if hexUpper (b % 16) = plusB then spaceB else hexUpper (b % 16)) ::
        plusToSpace rest) = _

      rw [if_neg (by decide : ¬ (pctB = plusB)), if_neg e1, if_neg e2]
      rw [percentDecode_pct (hexVal_hexUpper _ (by omega))
        (hexVal_hexUpper _ (by omega))]
      congr 1
      omega

theorem decodeComponent_percentEncode {s : Bytes} (h : Valid s) :
    decodeComponent (percentEncode s) = s := by
  induction s with
  | nil => rfl
  | cons b rest ih =>
    have hb : b < 256 := h b (by simp)
    have hr : Valid rest := fun x hx => h x (by simp [hx])
    unfold decodeComponent at ih ⊢
    show percentDecode (plusToSpace (encodeByte b ++ percentEncode rest)) = _
    rw [decode_encodeByte b hb, ih hr]

/-! ## takeUntil / dropUntil -/

theorem takeUntil_not_mem (a : Nat) (s : Bytes) : a ∉ takeUntil a s := by
  induction s with
  | nil => simp [takeUntil]
  | cons b rest ih =>
    by_cases hb : b = a
    · simp [takeUntil, hb]
    · simp only [takeUntil, if_neg hb, List.mem_cons, not_or]
      exact ⟨fun h => hb h.symm, ih⟩

theorem takeUntil_append {a : Nat} {xs : Bytes} (h : a ∉ xs) (ys : Bytes) :
    takeUntil a (xs ++ a :: ys) = xs := by
  induction xs with
  | nil => simp [takeUntil]
  | cons b rest ih =>
    have hb : b ≠ a := fun e => h (by simp [e])
    simp only [List.cons_append, takeUntil, if_neg hb]
    exact congrArg (b :: ·) (ih (fun hm => h (List.mem_cons_of_mem _ hm)))

theorem dropUntil_append {a : Nat} {xs : Bytes} (h : a ∉ xs) (ys : Bytes) :
    dropUntil a (xs ++ a :: ys) = a :: ys := by
  induction xs with
  | nil => simp [dropUntil]
  | cons b rest ih =>
    have hb : b ≠ a := fun e => h (by simp [e])
    simp only [List.cons_append, dropUntil, if_neg hb]
    exact ih (fun hm => h (List.mem_cons_of_mem _ hm))

theorem takeUntil_eq_self {a : Nat} {xs : Bytes} (h : a ∉ xs) :
    takeUntil a xs = xs := by
  induction xs with
  | nil => rfl
  | cons b rest ih =>
    have hb : b ≠ a := fun e => h (by simp [e])
    simp only [takeUntil, if_neg hb]
    rw [ih (fun hm => h (List.mem_cons_of_mem _ hm))]

theorem dropUntil_eq_nil {a : Nat} {xs : Bytes} (h : a ∉ xs) :
    dropUntil a xs = [] := by
  induction xs with
  | nil => rfl
  | cons b rest ih =>
    have hb : b ≠ a := fun e => h (by simp [e])
    simp only [dropUntil, if_neg hb]
    exact ih (fun hm => h (List.mem_cons_of_mem _ hm))

theorem mem_of_mem_takeUntil {a c : Nat} {s : Bytes}
    (h : c ∈ takeUntil a s) : c ∈ s := by
  induction s with
  | nil => simp [takeUntil] at h
  | cons b rest ih =>
    by_cases hb : b = a
    · simp [takeUntil, hb] at h
    · simp only [takeUntil, if_neg hb, List.mem_cons] at h
      rcases h with h | h
      · simp [h]
      · simp [ih h]

theorem mem_of_mem_dropUntil {a c : Nat} {s : Bytes}
    (h : c ∈ dropUntil a s) : c ∈ s := by
  induction s with
  | nil => simp [dropUntil] at h
  | cons b rest ih =>
    by_cases hb : b = a
    · simpa [dropUntil, hb] using h
    · simp only [dropUntil, if_neg hb] at h
      simp [ih h]

/-! ## splitAmp and the query round trip -/

theorem splitAmp_ne_nil (s : Bytes) : splitAmp s ≠ [] := by
  induction s with
  | nil => simp [splitAmp]
  | cons b rest ih =>
    by_cases hb : b = amp
    · simp [splitAmp, hb]
    · simp only [splitAmp, if_neg hb]
      rcases h : splitAmp rest with _ | ⟨s, ss⟩ <;> simp

theorem splitAmp_amp (l : Bytes) : splitAmp (amp :: l) = [] :: splitAmp l := by
  simp [splitAmp]

theorem splitAmp_append {xs : Bytes} (hxs : amp ∉ xs) {l s : Bytes}
    {ss : List Bytes} (h : splitAmp l = s :: ss) :
    splitAmp (xs ++ l) = (xs ++ s) :: ss := by
  induction xs with
  | nil => simpa using h
  | cons b rest ih =>
    have hb : b ≠ amp := fun e => hxs (by simp [e])
    have ih2 := ih (fun hm => hxs (List.mem_cons_of_mem _ hm))
    simp only [List.cons_append, splitAmp, if_neg hb]
    rw [show splitAmp (rest.append l) = (rest ++ s) :: ss from ih2]

theorem mem_of_mem_splitAmp {c : Nat} : ∀ {s : Bytes} {t : Bytes},
    t ∈ splitAmp s → c ∈ t → c ∈ s := by
  intro s
  induction s with
  | nil =>
    intro t ht hc
    simp only [splitAmp, List.mem_singleton] at ht
    subst ht
    simp at hc
  | cons b rest ih =>
    intro t ht hc
    by_cases hb : b = amp
    · rw [hb, splitAmp_amp, List.mem_cons] at ht
      rcases ht with ht | ht
      · subst ht; simp at hc
      · exact List.mem_cons_of_mem _ (ih ht hc)
    · simp only [splitAmp, if_neg hb] at ht
      rcases hsp : splitAmp rest with _ | ⟨s0, ss⟩
      · exact absurd hsp (splitAmp_ne_nil rest)
      · rw [hsp] at ht
        simp only [List.mem_cons] at ht
        rcases ht with ht | ht
        · subst ht
          rcases List.mem_cons.mp hc with hc | hc
          · simp [hc]
          · exact List.mem_cons_of_mem _
              (ih (by rw [hsp]; exact List.mem_cons_self _ _) hc)
        · exact List.mem_cons_of_mem _
            (ih (by rw [hsp]; exact List.mem_cons_of_mem _ ht) hc)

theorem nonEmptySegs_cons_nil (l : List Bytes) :
    nonEmptySegs ([] :: l) = nonEmptySegs l := by
  simp [nonEmptySegs]

theorem nonEmptySegs_cons_ne {s : Bytes} (h : s ≠ []) (l : List Bytes) :
    nonEmptySegs (s :: l) = s :: nonEmptySegs l := by
  simp [nonEmptySegs, h]

theorem mem_of_mem_nonEmptySegs {t : Bytes} : ∀ {l : List Bytes},
    t ∈ nonEmptySegs l → t ∈ l := by
  intro l
  induction l with
  | nil => intro h; simp [nonEmptySegs] at h
  | cons s rest ih =>
    intro h
    by_cases hs : s = []
    · rw [hs, nonEmptySegs_cons_nil] at h
      exact List.mem_cons_of_mem _ (ih h)
    · rw [nonEmptySegs_cons_ne hs] at h
      rcases List.mem_cons.mp h with h | h
      · simp [h]
      · exact List.mem_cons_of_mem _ (ih h)

theorem encPair_ne_nil (p : Bytes × Bytes) : encPair p ≠ [] := by
  unfold encPair
  intro h
  rcases List.append_eq_nil.mp h with ⟨_, h2⟩
  exact List.cons_ne_nil _ _ h2

theorem amp_not_mem_encPair (p : Bytes × Bytes) : amp ∉ encPair p := by
  intro hm
  unfold encPair at hm
  rcases List.mem_append.mp hm with h | h
  · exact (mem_percentEncode_ne h).1 rfl
  · rcases List.mem_cons.mp h with h | h
    · exact absurd h (by decide)
    · exact (mem_percentEncode_ne h).1 rfl

theorem parsePair_encPair {k v : Bytes} (hk : Valid k) (hv : Valid v) :
    parsePair (encPair (k, v)) = (k, v) := by
  unfold parsePair encPair
  have hek : eqB ∉ percentEncode k := fun hm => (mem_percentEncode_ne hm).2 rfl
  rw [takeUntil_append hek, dropUntil_append hek]
  simp only [List.drop_succ_cons, List.drop_zero]
  rw [decodeComponent_percentEncode hk, decodeComponent_percentEncode hv]

theorem parseQuery_nil : parseQuery [] = [] := rfl

theorem parseQuery_serializeQuery : ∀ {l : List (Bytes × Bytes)},
    (∀ p ∈ l, Valid p.1 ∧ Valid p.2) → parseQuery (serializeQuery l) = l := by
  intro l
  induction l with
  | nil => intro _; rfl
  | cons p rest ih =>
    intro h
    obtain ⟨hk, hv⟩ := h p (List.mem_cons_self _ _)
    have hr := fun q hq => h q (List.mem_cons_of_mem _ hq)
    have hpe : parsePair (encPair p) = p := parsePair_encPair hk hv
    cases rest with
    | nil =>
      show parseQuery (encPair p) = [p]
      unfold parseQuery
      have h1 : splitAmp (encPair p ++ []) = (encPair p ++ []) :: [] :=
        splitAmp_append (amp_not_mem_encPair p) rfl
      rw [List.append_nil] at h1
      rw [h1, nonEmptySegs_cons_ne (encPair_ne_nil p)]
      simp [hpe, nonEmptySegs]
    | cons q rest2 =>
      show parseQuery (encPair p ++ amp :: serializeQuery (q :: rest2)) = _
      rcases hsp : splitAmp (serializeQuery (q :: rest2)) with _ | ⟨s, ss⟩
      · exact absurd hsp (splitAmp_ne_nil _)
      · have h2 : splitAmp (amp :: serializeQuery (q :: rest2))
            = [] :: s :: ss := by rw [splitAmp_amp, hsp]
        unfold parseQuery
        rw [splitAmp_append (amp_not_mem_encPair p) h2, List.append_nil,
          nonEmptySegs_cons_ne (encPair_ne_nil p)]
        have ih2 := ih hr
        unfold parseQuery at ih2
        rw [hsp] at ih2
        simp only [List.map_cons, hpe, List.cons.injEq, true_and]
        exact ih2

/-! ## Algebra of get / set / delete on the parsed pair list -/

theorem getParam_deleteParam (k : Bytes) (l : List (Bytes × Bytes)) :
    getParam k (deleteParam k l) = none := by
  induction l with
  | nil => rfl
  | cons p rest ih =>
    obtain ⟨k0, v0⟩ := p
    by_cases hk : k0 = k
    · simp only [deleteParam, if_pos hk, ih]
    · simp only [deleteParam, if_neg hk, getParam, if_neg hk, ih]

theorem deleteParam_eq_of_none {k : Bytes} : ∀ {l : List (Bytes × Bytes)},
    getParam k l = none → deleteParam k l = l := by
  intro l
  induction l with
  | nil => intro _; rfl
  | cons p rest ih =>
    intro h
    obtain ⟨k0, v0⟩ := p
    by_cases hk : k0 = k
    · rw [getParam, if_pos hk] at h
      exact absurd h (by simp)
    · rw [getParam, if_neg hk] at h
      rw [deleteParam, if_neg hk, ih h]

theorem deleteParam_deleteParam (k : Bytes) (l : List (Bytes × Bytes)) :
    deleteParam k (deleteParam k l) = deleteParam k l :=
  deleteParam_eq_of_none (getParam_deleteParam k l)

theorem getParam_setParam (k v : Bytes) (l : List (Bytes × Bytes)) :
    getParam k (setParam k v l) = some v := by
  induction l with
  | nil => simp [setParam, getParam]
  | cons p rest ih =>
    obtain ⟨k0, v0⟩ := p
    by_cases hk : k0 = k
    · simp [setParam, if_pos hk, getParam]
    · simp only [setParam, if_neg hk, getParam, if_neg hk, ih]

theorem pairsFor_deleteParam (k : Bytes) (l : List (Bytes × Bytes)) :
    pairsFor k (deleteParam k l) = [] := by
  induction l with
  | nil => rfl
  | cons p rest ih =>
    obtain ⟨k0, v0⟩ := p
    by_cases hk : k0 = k
    · simp only [deleteParam, if_pos hk, ih]
    · simp only [deleteParam, if_neg hk, pairsFor, if_neg hk, ih]

theorem pairsFor_setParam (k v : Bytes) (l : List (Bytes × Bytes)) :
    pairsFor k (setParam k v l) = [(k, v)] := by
  induction l with
  | nil => simp [setParam, pairsFor]
  | cons p rest ih =>
    obtain ⟨k0, v0⟩ := p
    by_cases hk : k0 = k
    · simp only [setParam, if_pos hk, pairsFor, if_pos rfl,
        pairsFor_deleteParam, eq_self_iff_true, if_true]
    · simp only [setParam, if_neg hk, pairsFor, if_neg hk, ih]

theorem pairsNot_deleteParam (k : Bytes) (l : List (Bytes × Bytes)) :
    pairsNot k (deleteParam k l) = pairsNot k l := by
  induction l with
  | nil => rfl
  | cons p rest ih =>
    obtain ⟨k0, v0⟩ := p
    by_cases hk : k0 = k
    · simp only [deleteParam, if_pos hk, pairsNot, if_pos hk, ih]
    · simp only [deleteParam, if_neg hk, pairsNot, if_neg hk, ih]

theorem pairsNot_setParam (k v : Bytes) (l : List (Bytes × Bytes)) :
    pairsNot k (setParam k v l) = pairsNot k l := by
  induction l with
  | nil => simp [setParam, pairsNot]
  | cons p rest ih =>
    obtain ⟨k0, v0⟩ := p
    by_cases hk : k0 = k
    · simp only [setParam, if_pos hk, pairsNot, if_pos rfl, if_pos hk,
        pairsNot_deleteParam, eq_self_iff_true, if_true]
    · simp only [setParam, if_neg hk, pairsNot, if_neg hk, ih]

theorem getParam_first {k : Bytes} : ∀ {l1 : List (Bytes × Bytes)}
    (_ : ∀ p ∈ l1, p.1 ≠ k) (v : Bytes) (l2 : List (Bytes × Bytes)),
    getParam k (l1 ++ (k, v) :: l2) = some v := by
  intro l1
  induction l1 with
  | nil => intro _ v l2; simp [getParam]
  | cons p rest ih =>
    intro h v l2
    obtain ⟨k0, v0⟩ := p
    have hk : k0 ≠ k := h (k0, v0) (List.mem_cons_self _ _)
    rw [List.cons_append, getParam, if_neg hk]
    exact ih (fun q hq => h q (List.mem_cons_of_mem _ hq)) v l2

theorem mem_of_mem_deleteParam {k : Bytes} {p : Bytes × Bytes} :
    ∀ {l : List (Bytes × Bytes)}, p ∈ deleteParam k l → p ∈ l := by
  intro l
  induction l with
  | nil => intro h; simp [deleteParam] at h
  | cons q rest ih =>
    intro h
    obtain ⟨k0, v0⟩ := q
    by_cases hk : k0 = k
    · rw [deleteParam, if_pos hk] at h
      exact List.mem_cons_of_mem _ (ih h)
    · rw [deleteParam, if_neg hk] at h
      rcases List.mem_cons.mp h with h | h
      · simp [h]
      · exact List.mem_cons_of_mem _ (ih h)

theorem mem_of_mem_setParam {k v : Bytes} {p : Bytes × Bytes} :
    ∀ {l : List (Bytes × Bytes)}, p ∈ setParam k v l →
      p = (k, v) ∨ p ∈ l := by
  intro l
  induction l with
  | nil => intro h; simp [setParam] at h; simp [h]
  | cons q rest ih =>
    intro h
    obtain ⟨k0, v0⟩ := q
    by_cases hk : k0 = k
    · rw [setParam, if_pos hk] at h
      rcases List.mem_cons.mp h with h | h
      · exact Or.inl h
      · exact Or.inr (List.mem_cons_of_mem _ (mem_of_mem_deleteParam h))
    · rw [setParam, if_neg hk] at h
      rcases List.mem_cons.mp h with h | h
      · exact Or.inr (by simp [h])
      · rcases ih h with h | h
        · exact Or.inl h
        · exact Or.inr (List.mem_cons_of_mem _ h)

/-! ## Validity is preserved by the codec -/

theorem valid_plusToSpace {s : Bytes} (h : Valid s) : Valid (plusToSpace s) := by
  induction s with
  | nil => exact h
  | cons b rest ih =>
    intro c hc
    rw [plusToSpace] at hc
    rcases List.mem_cons.mp hc with hc | hc
    · subst hc
      split
      · decide
      · exact h b (List.mem_cons_self _ _)
    · exact ih (fun x hx => h x (List.mem_cons_of_mem _ hx)) c hc

theorem valid_pctGo : ∀ (n : Nat) {s : Bytes}, Valid s → Valid (pctGo n s) := by
  intro n
  induction n with
  | zero =>
    intro s h
    cases s with
    | nil => exact h
    | cons b rest => exact h
  | succ n ih =>
    intro s h
    cases s with
    | nil => exact h
    | cons b rest =>
      have hb : b < 256 := h b (List.mem_cons_self _ _)
      have hrest : Valid rest := fun x hx => h x (List.mem_cons_of_mem _ hx)
      by_cases hpc : b = pctB
      · subst hpc
        cases rest with
        | nil =>
          rw [pctGo_pct_zero]
          intro c hc
          rcases List.mem_cons.mp hc with hc | hc
          · subst hc; decide
          · rw [pctGo_nil] at hc; simp at hc
        | cons h1 t =>
          cases t with
          | nil =>
            rw [pctGo_pct_one]
            intro c hc
            rcases List.mem_cons.mp hc with hc | hc
            · subst hc; decide
            · exact ih hrest c hc
          | cons h2 rest2 =>
            have hrest2 : Valid rest2 := fun x hx =>
              hrest x (List.mem_cons_of_mem _ (List.mem_cons_of_mem _ hx))
            rcases hx : hexVal? h1 with _ | v1
            · rw [pctGo_pct_bad (Or.inl hx)]
              intro c hc
              rcases List.mem_cons.mp hc with hc | hc
              · subst hc; decide
              · exact ih hrest c hc
            · rcases hy : hexVal? h2 with _ | v2
              · rw [pctGo_pct_bad (Or.inr hy)]
                intro c hc
                rcases List.mem_cons.mp hc with hc | hc
                · subst hc; decide
                · exact ih hrest c hc
              · rw [pctGo_pct_hex hx hy]
                intro c hc
                rcases List.mem_cons.mp hc with hc | hc
                · subst hc
                  have := hexVal_lt hx
                  have := hexVal_lt hy
                  omega
                · exact ih hrest2 c hc
      · rw [pctGo_cons_ne hpc]
        intro c hc
        rcases List.mem_cons.mp hc with hc | hc
        · subst hc; exact hb
        · exact ih hrest c hc

theorem valid_decodeComponent {s : Bytes} (h : Valid s) :
    Valid (decodeComponent s) :=
  valid_pctGo _ (valid_plusToSpace h)

theorem valid_parseQuery {s : Bytes} (h : Valid s) :
    ∀ p ∈ parseQuery s, Valid p.1 ∧ Valid p.2 := by
  intro p hp
  unfold parseQuery at hp
  rcases List.mem_map.mp hp with ⟨seg, hseg, hpp⟩
  have hsegv : Valid seg := fun c hc =>
    h c (mem_of_mem_splitAmp (mem_of_mem_nonEmptySegs hseg) hc)
  subst hpp
  unfold parsePair
  constructor
  · exact valid_decodeComponent (fun c hc => hsegv c (mem_of_mem_takeUntil hc))
  · exact valid_decodeComponent (fun c hc =>
      hsegv c (mem_of_mem_dropUntil (List.mem_of_mem_drop hc)))

/-! ## Glue: rebuilding and re-splitting the target URL -/

theorem mem_of_mem_stripLeadQ {c : Nat} {s : Bytes} (h : c ∈ stripLeadQ s) :
    c ∈ s := by
  cases s with
  | nil => simp [stripLeadQ] at h
  | cons b rest =>
    by_cases hb : b = qmark
    · rw [show stripLeadQ (b :: rest) = rest from by simp [stripLeadQ, hb]] at h
      exact List.mem_cons_of_mem _ h
    · rwa [show stripLeadQ (b :: rest) = b :: rest from by
        simp [stripLeadQ, hb]] at h

theorem qmark_not_mem_urlPathname (u : Bytes) : qmark ∉ urlPathname u :=
  takeUntil_not_mem qmark u

theorem valid_parseU {u : Bytes} (hu : Valid u) :
    ∀ p ∈ parseU u, Valid p.1 ∧ Valid p.2 :=
  valid_parseQuery (fun c hc =>
    hu c (mem_of_mem_dropUntil (mem_of_mem_stripLeadQ hc)))

theorem not_mem_stripTrailingSlash {c : Nat} {p : Bytes} (h : c ∉ p) :
    c ∉ stripTrailingSlash p := by
  unfold stripTrailingSlash
  split
  · intro hm; exact h (List.mem_of_mem_dropLast hm)
  · exact h

theorem parseU_build {sp : Bytes} (hsp : qmark ∉ sp) (qs : Bytes) :
    parseU (sp ++ (if qs = [] then [] else qmark :: qs)) = parseQuery qs := by
  unfold parseU urlSearch
  by_cases h : qs = []
  · rw [if_pos h, List.append_nil, dropUntil_eq_nil hsp, h]
    rfl
  · rw [if_neg h, dropUntil_append hsp]
    simp [stripLeadQ]

theorem urlPathname_build {sp : Bytes} (hsp : qmark ∉ sp) (qs : Bytes) :
    urlPathname (sp ++ (if qs = [] then [] else qmark :: qs)) = sp := by
  unfold urlPathname
  by_cases h : qs = []
  · rw [if_pos h, List.append_nil, takeUntil_eq_self hsp]
  · rw [if_neg h, takeUntil_append hsp]

theorem valid_setParamList {params : List (Bytes × Bytes)}
    (hp : ∀ p ∈ params, Valid p.1 ∧ Valid p.2) {key y : Bytes}
    (hk : Valid key) (hy : Valid y) :
    ∀ p ∈ setParam key y params, Valid p.1 ∧ Valid p.2 := by
  intro p hmem
  rcases mem_of_mem_setParam hmem with h | h
  · subst h; exact ⟨hk, hy⟩
  · exact hp p h

theorem valid_deleteParamList {params : List (Bytes × Bytes)}
    (hp : ∀ p ∈ params, Valid p.1 ∧ Valid p.2) (key : Bytes) :
    ∀ p ∈ deleteParam key params, Valid p.1 ∧ Valid p.2 :=
  fun p hmem => hp p (mem_of_mem_deleteParam hmem)

/-! ## Unfolding lemmas for resolve (the pure handleParam on a URL) -/

theorem resolve_resolvedValue_undef (u k : Bytes) (options : BindingOptions) :
    (resolve u k .undef options).resolvedValue = getParam k (parseU u) := rfl

theorem resolve_resolvedValue_null (u k : Bytes) (options : BindingOptions) :
    (resolve u k .null options).resolvedValue = none := rfl

theorem resolve_resolvedValue_str (u k s : Bytes) (options : BindingOptions) :
    (resolve u k (.str s) options).resolvedValue = some s := rfl

theorem resolve_target_str (u k s : Bytes) (options : BindingOptions) :
    (resolve u k (.str s) options).target =
      stripTrailingSlash (urlPathname u) ++
        (if serializeQuery (setParam k s (parseU u)) = [] then []
         else qmark :: serializeQuery (setParam k s (parseU u))) := rfl

theorem resolve_target_null_del (u k : Bytes) {options : BindingOptions}
    (h : options.nullDeletes.getD true = true) :
    (resolve u k .null options).target =
      stripTrailingSlash (urlPathname u) ++
        (if serializeQuery (deleteParam k (parseU u)) = [] then []
         else qmark :: serializeQuery (deleteParam k (parseU u))) := by
  unfold resolve handleParam
  rw [h]
  simp only [if_true]
  rfl

theorem resolve_target_null_noDel (u k : Bytes) {options : BindingOptions}
    (h : options.nullDeletes.getD true = false) :
    (resolve u k .null options).target =
      stripTrailingSlash (urlPathname u) ++
        (if serializeQuery (setParam k nullStr (parseU u)) = [] then []
         else qmark :: serializeQuery (setParam k nullStr (parseU u))) := by
  unfold resolve handleParam
  rw [h]
  simp only [Bool.false_eq_true, if_false]
  rfl

theorem resolve_target_undef_present (u k : Bytes) {w : Bytes}
    (options : BindingOptions) (h : getParam k (parseU u) = some w) :
    (resolve u k .undef options).target =
      stripTrailingSlash (urlPathname u) ++
        (if serializeQuery (setParam k w (parseU u)) = [] then []
         else qmark :: serializeQuery (setParam k w (parseU u))) := by
  simp only [resolve, handleParam]
  rw [show getParam k (parseQuery (stripLeadQ
    (urlSearch u))) = some w from h]
  rfl

theorem resolve_target_undef_absent_del (u k : Bytes)
    {options : BindingOptions} (h : getParam k (parseU u) = none)
    (hdel : options.nullDeletes.getD true = true) :
    (resolve u k .undef options).target =
      stripTrailingSlash (urlPathname u) ++
        (if serializeQuery (deleteParam k (parseU u)) = [] then []
         else qmark :: serializeQuery (deleteParam k (parseU u))) := by
  simp only [resolve, handleParam]
  rw [show getParam k (parseQuery (stripLeadQ
    (urlSearch u))) = none from h, hdel]
  simp only [if_true]
  rfl

/-- C3: writing a string value `v` for key `k` into any URL and reading
`k` back from the resulting URL yields `v` again. -/
theorem C3_write_read_round_trip (u k v : Bytes) (hu : Valid u)
    (hk : Valid k) (hv : Valid v) :
    (resolve ((resolve u k (.str v) {}).target) k .undef
      {}).resolvedValue = some v := by
  rw [resolve_resolvedValue_undef, resolve_target_str,
    parseU_build (not_mem_stripTrailingSlash (qmark_not_mem_urlPathname u)),
    parseQuery_serializeQuery (valid_setParamList (valid_parseU hu) hk hv),
    getParam_setParam]

/-- Witness for C3 at a concrete URL, key and value. -/
theorem C3_write_read_round_trip_witness :
    Valid (strB "/blog?tag=js") ∧ Valid (strB "page") ∧ Valid (strB "3") ∧
      (resolve ((resolve (strB "/blog?tag=js") (strB "page")
        (.str (strB "3")) {}).target) (strB "page") .undef
        {}).resolvedValue = some (strB "3") :=
  ⟨by decide, by decide, by decide,
    C3_write_read_round_trip _ _ _ (by decide) (by decide) (by decide)⟩

/-! ## Further unfolding lemmas, at the Location level -/

theorem resolve_target_undef_absent_noDel (u k : Bytes)
    {options : BindingOptions} (h : getParam k (parseU u) = none)
    (hnd : options.nullDeletes.getD true = false) :
    (resolve u k .undef options).target =
      stripTrailingSlash (urlPathname u) ++
        (if serializeQuery (setParam k nullStr (parseU u)) = [] then []
         else qmark :: serializeQuery (setParam k nullStr (parseU u))) := by
  simp only [resolve, handleParam]
  rw [show getParam k (parseQuery (stripLeadQ
    (urlSearch u))) = none from h, hnd]
  simp only [Bool.false_eq_true, if_false]
  rfl

theorem valid_getParam {k w : Bytes} : ∀ {l : List (Bytes × Bytes)},
    (∀ p ∈ l, Valid p.1 ∧ Valid p.2) → getParam k l = some w → Valid w := by
  intro l
  induction l with
  | nil => intro _ h; exact absurd h (by simp [getParam])
  | cons p rest ih =>
    intro hl h
    obtain ⟨k0, v0⟩ := p
    by_cases hk : k0 = k
    · rw [getParam, if_pos hk] at h
      injection h with h
      exact h ▸ (hl (k0, v0) (List.mem_cons_self _ _)).2
    · rw [getParam, if_neg hk] at h
      exact ih (fun q hq => hl q (List.mem_cons_of_mem _ hq)) h

theorem handleParam_resolvedValue_str (loc : Location) (k s : Bytes)
    (options : BindingOptions) :
    (handleParam loc k (.str s) options).resolvedValue = some s := rfl

theorem handleParam_resolvedValue_null (loc : Location) (k : Bytes)
    (options : BindingOptions) :
    (handleParam loc k .null options).resolvedValue = none := rfl

theorem handleParam_target_str (loc : Location) (k s : Bytes)
    (options : BindingOptions) :
    (handleParam loc k (.str s) options).target =
      stripTrailingSlash loc.pathname ++
        (if serializeQuery (setParam k s
            (parseQuery (stripLeadQ loc.search))) = [] then []
         else qmark :: serializeQuery (setParam k s
            (parseQuery (stripLeadQ loc.search)))) := rfl

theorem handleParam_target_null_del (loc : Location) (k : Bytes)
    {options : BindingOptions} (h : options.nullDeletes.getD true = true) :
    (handleParam loc k .null options).target =
      stripTrailingSlash loc.pathname ++
        (if serializeQuery (deleteParam k
            (parseQuery (stripLeadQ loc.search))) = [] then []
         else qmark :: serializeQuery (deleteParam k
            (parseQuery (stripLeadQ loc.search)))) := by
  simp only [handleParam]
  rw [h]
  simp only [if_true]

theorem commit_current (h : History) (m : HistoryState) (t : Bytes) :
    (commit h m t).current = t := by
  cases m <;> rfl

theorem useQueryParam_history (loc : Location) (hist : History) (key : Bytes)
    (value : QueryValue) (options : BindingOptions) :
    (useQueryParam loc hist key value options).2
      = commit hist (options.historyState.getD .replace)
          (handleParam loc key value options).target := rfl

theorem setQueryParam_history (loc : Location) (hist : History) (key : Bytes)
    (options : BindingOptions) (newValue : QueryValue)
    (override : BindingOptions) :
    (setQueryParam loc hist key options newValue override).2
      = commit hist
          ((mergeOptions options override).historyState.getD .replace)
          (handleParam loc key newValue
            (mergeOptions options override)).target := rfl

theorem setQueryParam_param (loc : Location) (hist : History) (key : Bytes)
    (options : BindingOptions) (newValue : QueryValue)
    (override : BindingOptions) :
    (setQueryParam loc hist key options newValue override).1.param
      = (handleParam loc key newValue
          (mergeOptions options override)).resolvedValue := rfl

/-- C4 counterexample: on `/x?a=1&a=2` a read of `a` returns the value of
the FIRST occurrence, `1`, not the last occurrence `2` the claim
demands (`URLSearchParams.get` returns the first match). -/
theorem C4_last_wins_counterexample :
    (resolve (strB "/x?a=1&a=2") (strB "a") .undef {}).resolvedValue
      = some (strB "1") ∧ some (strB "1") ≠ some (strB "2") := by
  constructor
  · decide
  · decide

/-- C4 amended: with duplicate occurrences of a key, a read resolves to the
value of the first occurrence of the key in the parsed query. -/
theorem C4_first_occurrence_wins (u k v : Bytes) (options : BindingOptions)
    (l1 l2 : List (Bytes × Bytes)) (hsplit : parseU u = l1 ++ (k, v) :: l2)
    (hfirst : ∀ p ∈ l1, p.1 ≠ k) :
    (resolve u k .undef options).resolvedValue = some v := by
  rw [resolve_resolvedValue_undef, hsplit, getParam_first hfirst]

/-- Witness for C4 amended on a URL with a duplicated key. -/
theorem C4_first_occurrence_wins_witness :
    parseU (strB "/x?a=1&a=2")
      = [] ++ (strB "a", strB "1") :: [(strB "a", strB "2")] ∧
    (resolve (strB "/x?a=1&a=2") (strB "a") .undef {}).resolvedValue
      = some (strB "1") :=
  ⟨by decide, C4_first_occurrence_wins _ _ _ {} [] [(strB "a", strB "2")]
    (by decide) (by simp)⟩

/-- C5 counterexample: with `nullDeletes: false`, resolving `null` is not a
no-op: `params.set(key, null)` stringifies `null` and writes `tag=null`. -/
theorem C5_noop_counterexample :
    (resolve (strB "/blog") (strB "tag") .null
      { nullDeletes := some false }).target = strB "/blog?tag=null"
    ∧ strB "/blog?tag=null" ≠ strB "/blog" := by
  constructor
  · decide
  · decide

/-- C5 amended: with `nullDeletes` false, a `null` write sets the key to the
literal string `"null"` in the query, while the value returned to the
consumer is still `null`. -/
theorem C5_null_writes_literal (u k : Bytes) {options : BindingOptions}
    (hnd : options.nullDeletes.getD true = false) (hu : Valid u)
    (hk : Valid k) :
    pairsFor k (parseU (resolve u k .null options).target) = [(k, nullStr)]
    ∧ (resolve u k .null options).resolvedValue = none := by
  constructor
  · rw [resolve_target_null_noDel u k hnd,
      parseU_build (not_mem_stripTrailingSlash (qmark_not_mem_urlPathname u)),
      parseQuery_serializeQuery
        (valid_setParamList (valid_parseU hu) hk (by decide)),
      pairsFor_setParam]
  · exact resolve_resolvedValue_null u k options

/-- Witness for C5 amended at a concrete URL. -/
theorem C5_null_writes_literal_witness :
    Valid (strB "/blog") ∧ Valid (strB "tag") ∧
    pairsFor (strB "tag") (parseU (resolve (strB "/blog") (strB "tag") .null
      { nullDeletes := some false }).target) = [(strB "tag", nullStr)] :=
  ⟨by decide, by decide,
    (C5_null_writes_literal (strB "/blog") (strB "tag") (by rfl) (by decide)
      (by decide)).1⟩

/-- C9 counterexample: on the URL `/blog//` deleting `tag` once yields
`/blog/` but deleting it twice yields `/blog`, because the trailing-slash
strip applies again on the second pass. -/
theorem C9_idempotence_counterexample :
    (resolve ((resolve (strB "/blog//") (strB "tag") .null
        { nullDeletes := some true }).target) (strB "tag") .null
        { nullDeletes := some true }).target
      = strB "/blog"
    ∧ (resolve (strB "/blog//") (strB "tag") .null
        { nullDeletes := some true }).target = strB "/blog/"
    ∧ strB "/blog" ≠ strB "/blog/" := by
  refine ⟨?_, ?_, ?_⟩ <;> decide

/-- C9 amended: deletion is idempotent for every URL whose path does not
end in a double slash, i.e. on which the trailing-slash strip is already
idempotent. -/
theorem C9_deletion_idempotent (u k : Bytes) (hu : Valid u)
    (hss : stripTrailingSlash (stripTrailingSlash (urlPathname u))
      = stripTrailingSlash (urlPathname u)) :
    (resolve ((resolve u k .null { nullDeletes := some true }).target) k
        .null { nullDeletes := some true }).target
      = (resolve u k .null { nullDeletes := some true }).target := by
  have hD : ∀ p ∈ deleteParam k (parseU u), Valid p.1 ∧ Valid p.2 :=
    valid_deleteParamList (valid_parseU hu) k
  rw [resolve_target_null_del u k (by rfl)]
  rw [resolve_target_null_del _ k (by rfl)]
  rw [urlPathname_build (not_mem_stripTrailingSlash
        (qmark_not_mem_urlPathname u)),
    parseU_build (not_mem_stripTrailingSlash (qmark_not_mem_urlPathname u)),
    parseQuery_serializeQuery hD, deleteParam_deleteParam, hss]

/-- Witness for C9 amended at a concrete URL. -/
theorem C9_deletion_idempotent_witness :
    Valid (strB "/blog?tag=x&p=1") ∧
    (resolve ((resolve (strB "/blog?tag=x&p=1") (strB "tag") .null
        { nullDeletes := some true }).target) (strB "tag") .null
        { nullDeletes := some true }).target
      = (resolve (strB "/blog?tag=x&p=1") (strB "tag") .null
        { nullDeletes := some true }).target :=
  ⟨by decide, C9_deletion_idempotent (strB "/blog?tag=x&p=1") (strB "tag")
    (by decide) (by decide)⟩

/-- C10: writing the empty string keeps the key present with an empty
value (the pair `(k, "")`, serialized `k=`), and resolves to the empty
string; the key is not deleted. -/
theorem C10_empty_string_kept (u k : Bytes) (options : BindingOptions)
    (hu : Valid u) (hk : Valid k) :
    pairsFor k (parseU (resolve u k (.str []) options).target) = [(k, [])]
    ∧ (resolve u k (.str []) options).resolvedValue = some [] := by
  constructor
  · rw [resolve_target_str,
      parseU_build (not_mem_stripTrailingSlash (qmark_not_mem_urlPathname u)),
      parseQuery_serializeQuery
        (valid_setParamList (valid_parseU hu) hk (by decide)),
      pairsFor_setParam]
  · exact resolve_resolvedValue_str u k [] options

/-- Witness for C10: concretely, `/blog` becomes `/blog?tag=`. -/
theorem C10_empty_string_kept_witness :
    (resolve (strB "/blog") (strB "tag") (.str []) {}).target
      = strB "/blog?tag="
    ∧ pairsFor (strB "tag") (parseU (resolve (strB "/blog") (strB "tag")
        (.str []) {}).target) = [(strB "tag", [])] :=
  ⟨by decide,
    (C10_empty_string_kept (strB "/blog") (strB "tag") {} (by decide)
      (by decide)).1⟩

/-- C6 counterexample: the path IS mutated when it ends in a slash:
resolving on `/blog/` strips it to `/blog`. -/
theorem C6_path_counterexample :
    urlPathname ((resolve (strB "/blog/") (strB "tag") (.str (strB "a"))
      {}).target) = strB "/blog"
    ∧ urlPathname (strB "/blog/") = strB "/blog/"
    ∧ strB "/blog" ≠ strB "/blog/" := by
  refine ⟨?_, ?_, ?_⟩ <;> decide

/-- C6 amended: for every URL, key and requested value, the resulting URL's
path is the original path with one trailing slash stripped (otherwise
untouched), and every other parsed key=value pair is preserved in value and
relative order; on `/blog?tag=js&page=2` setting `page` to `3` gives
exactly `/blog?tag=js&page=3`. -/
theorem C6_path_and_other_keys (u k : Bytes) (value : QueryValue)
    (options : BindingOptions) (hu : Valid u) (hk : Valid k)
    (hv : ValidQV value) :
    urlPathname (resolve u k value options).target
        = stripTrailingSlash (urlPathname u)
    ∧ pairsNot k (parseU (resolve u k value options).target)
        = pairsNot k (parseU u) := by
  have hparams := valid_parseU hu
  have hq := not_mem_stripTrailingSlash (qmark_not_mem_urlPathname u)
  cases value with
  | str s =>
    refine ⟨?_, ?_⟩
    · rw [resolve_target_str, urlPathname_build hq]
    · rw [resolve_target_str, parseU_build hq,
        parseQuery_serializeQuery (valid_setParamList hparams hk hv),
        pairsNot_setParam]
  | null =>
    rcases hnd : options.nullDeletes.getD true with _ | _
    · refine ⟨?_, ?_⟩
      · rw [resolve_target_null_noDel u k hnd, urlPathname_build hq]
      · rw [resolve_target_null_noDel u k hnd, parseU_build hq,
          parseQuery_serializeQuery
            (valid_setParamList hparams hk (by decide)),
          pairsNot_setParam]
    · refine ⟨?_, ?_⟩
      · rw [resolve_target_null_del u k hnd, urlPathname_build hq]
      · rw [resolve_target_null_del u k hnd, parseU_build hq,
          parseQuery_serializeQuery (valid_deleteParamList hparams k),
          pairsNot_deleteParam]
  | undef =>
    rcases hg : getParam k (parseU u) with _ | w
    · rcases hnd : options.nullDeletes.getD true with _ | _
      · refine ⟨?_, ?_⟩
        · rw [resolve_target_undef_absent_noDel u k hg hnd,
            urlPathname_build hq]
        · rw [resolve_target_undef_absent_noDel u k hg hnd, parseU_build hq,
            parseQuery_serializeQuery
              (valid_setParamList hparams hk (by decide)),
            pairsNot_setParam]
      · refine ⟨?_, ?_⟩
        · rw [resolve_target_undef_absent_del u k hg hnd,
            urlPathname_build hq]
        · rw [resolve_target_undef_absent_del u k hg hnd, parseU_build hq,
            parseQuery_serializeQuery (valid_deleteParamList hparams k),
            pairsNot_deleteParam]
    · have hw : Valid w := valid_getParam hparams hg
      refine ⟨?_, ?_⟩
      · rw [resolve_target_undef_present u k options hg, urlPathname_build hq]
      · rw [resolve_target_undef_present u k options hg, parseU_build hq,
          parseQuery_serializeQuery (valid_setParamList hparams hk hw),
          pairsNot_setParam]

/-- Witness for C6 amended: the spec's own preservation example. -/
theorem C6_path_and_other_keys_witness :
    (resolve (strB "/blog?tag=js&page=2") (strB "page") (.str (strB "3"))
      {}).target = strB "/blog?tag=js&page=3"
    ∧ pairsNot (strB "page") (parseU (resolve (strB "/blog?tag=js&page=2")
        (strB "page") (.str (strB "3")) {}).target)
      = pairsNot (strB "page") (parseU (strB "/blog?tag=js&page=2")) :=
  ⟨by decide,
    (C6_path_and_other_keys (strB "/blog?tag=js&page=2") (strB "page")
      (.str (strB "3")) {} (by decide) (by decide)
      (show Valid (strB "3") by decide)).2⟩

/-- C7 counterexample: a read is not always URL- and mapping-preserving:
on `/blog/` a read of the absent `tag` changes the URL to `/blog`, and on
`/x?a=1&a=2` a read of `a` collapses the duplicate, mutating the parsed
mapping. -/
theorem C7_read_counterexample :
    ((resolve (strB "/blog/") (strB "tag") .undef {}).target = strB "/blog"
      ∧ strB "/blog" ≠ strB "/blog/")
    ∧ ((resolve (strB "/x?a=1&a=2") (strB "a") .undef {}).target
        = strB "/x?a=1"
      ∧ parseU (strB "/x?a=1") ≠ parseU (strB "/x?a=1&a=2")) := by
  refine ⟨⟨?_, ?_⟩, ?_, ?_⟩ <;> decide

/-- C7 amended: a read (requested value `undefined`) resolves to the value
of the first occurrence of the key, or `null` when the key is absent; when
the key is absent and `nullDeletes` holds, the parsed query mapping of the
resulting URL equals that of the input URL (the URL itself may still be
normalized: trailing slash stripped and query re-serialized). -/
theorem C7_read_resolves_current (u k : Bytes) (options : BindingOptions)
    (hu : Valid u) :
    (∀ w, getParam k (parseU u) = some w →
      (resolve u k .undef options).resolvedValue = some w)
    ∧ (getParam k (parseU u) = none →
        (resolve u k .undef options).resolvedValue = none
        ∧ (options.nullDeletes.getD true = true →
            parseU (resolve u k .undef options).target = parseU u)) := by
  constructor
  · intro w hw
    rw [resolve_resolvedValue_undef, hw]
  · intro hnone
    refine ⟨by rw [resolve_resolvedValue_undef, hnone], fun hdel => ?_⟩
    rw [resolve_target_undef_absent_del u k hnone hdel,
      parseU_build (not_mem_stripTrailingSlash (qmark_not_mem_urlPathname u)),
      parseQuery_serializeQuery (valid_deleteParamList (valid_parseU hu) k),
      deleteParam_eq_of_none hnone]

/-- Witness for C7 amended: the spec's absence-read example on `/blog`. -/
theorem C7_read_resolves_current_witness :
    Valid (strB "/blog") ∧
    (resolve (strB "/blog") (strB "tag") .undef {}).resolvedValue = none :=
  ⟨by decide,
    ((C7_read_resolves_current (strB "/blog") (strB "tag") {}
      (by decide)).2 (by decide)).1⟩

/-- C1: after a setter call with a string value, the committed URL's query
carries the key exactly once with that value and the held state equals it;
after a deleting `null` (merged `nullDeletes` true) the key is absent and
the held state is `null`. -/
theorem C1_setter_reflects_state (loc : Location) (hist : History)
    (key : Bytes) (options override : BindingOptions) (hs : Valid loc.search)
    (hp : qmark ∉ loc.pathname) (hk : Valid key) :
    (∀ s, Valid s →
      pairsFor key (parseU (setQueryParam loc hist key options (.str s)
          override).2.current) = [(key, s)]
      ∧ (setQueryParam loc hist key options (.str s) override).1.param
          = some s)
    ∧ ((mergeOptions options override).nullDeletes.getD true = true →
      pairsFor key (parseU (setQueryParam loc hist key options .null
          override).2.current) = []
      ∧ (setQueryParam loc hist key options .null override).1.param
          = none) := by
  have hparams : ∀ p ∈ parseQuery (stripLeadQ loc.search),
      Valid p.1 ∧ Valid p.2 :=
    valid_parseQuery (fun c hc => hs c (mem_of_mem_stripLeadQ hc))
  have hq := not_mem_stripTrailingSlash hp
  constructor
  · intro s hsv
    refine ⟨?_, ?_⟩
    · rw [setQueryParam_history, commit_current, handleParam_target_str,
        parseU_build hq,
        parseQuery_serializeQuery (valid_setParamList hparams hk hsv),
        pairsFor_setParam]
    · rw [setQueryParam_param, handleParam_resolvedValue_str]
  · intro hdel
    refine ⟨?_, ?_⟩
    · rw [setQueryParam_history, commit_current,
        handleParam_target_null_del loc key hdel, parseU_build hq,
        parseQuery_serializeQuery (valid_deleteParamList hparams key),
        pairsFor_deleteParam]
    · rw [setQueryParam_param, handleParam_resolvedValue_null]

/-- Witness for C1 at a concrete location, history and value. -/
theorem C1_setter_reflects_state_witness :
    Valid (strB "?tag=a") ∧ qmark ∉ strB "/blog" ∧
    pairsFor (strB "tag") (parseU (setQueryParam ⟨strB "/blog", strB "?tag=a"⟩
        ⟨[], strB "/blog?tag=a"⟩ (strB "tag") {} (.str (strB "science"))
        {}).2.current) = [(strB "tag", strB "science")]
    ∧ (setQueryParam ⟨strB "/blog", strB "?tag=a"⟩ ⟨[], strB "/blog?tag=a"⟩
        (strB "tag") {} (.str (strB "science")) {}).1.param
      = some (strB "science") :=
  ⟨by decide, by decide,
    ((C1_setter_reflects_state ⟨strB "/blog", strB "?tag=a"⟩
        ⟨[], strB "/blog?tag=a"⟩ (strB "tag") {} {} (by decide) (by decide)
        (by decide)).1 (strB "science") (by decide)).1,
    ((C1_setter_reflects_state ⟨strB "/blog", strB "?tag=a"⟩
        ⟨[], strB "/blog?tag=a"⟩ (strB "tag") {} {} (by decide) (by decide)
        (by decide)).1 (strB "science") (by decide)).2⟩

/-- C2 counterexample: initialization is NOT history-neutral: binding with
`historyState: 'push'` pushes a new entry already at mount, growing the
history from one entry to two. -/
theorem C2_init_counterexample :
    entryCount (useQueryParam ⟨strB "/blog", []⟩ ⟨[], strB "/blog"⟩
      (strB "tag") .undef { historyState := some .push }).2 = 2
    ∧ entryCount ⟨[], strB "/blog"⟩ = 1 := by
  constructor
  · decide
  · decide

/-- C2 amended: initialization performs one history commit of the
recomputed target URL with the configured mode: with `replace` (the
default) the entry count is unchanged but the current entry is overwritten
with the target; with `push` one entry is added. -/
theorem C2_init_commits (loc : Location) (hist : History) (key : Bytes)
    (value : QueryValue) (options : BindingOptions) :
    (useQueryParam loc hist key value options).2.current
        = (handleParam loc key value options).target
    ∧ (options.historyState.getD .replace = .replace →
        entryCount (useQueryParam loc hist key value options).2
          = entryCount hist)
    ∧ (options.historyState.getD .replace = .push →
        entryCount (useQueryParam loc hist key value options).2
          = entryCount hist + 1
        ∧ (useQueryParam loc hist key value options).2.back.head?
            = some hist.current) := by
  refine ⟨?_, ?_, ?_⟩
  · rw [useQueryParam_history, commit_current]
  · intro h
    rw [useQueryParam_history, h]
    rfl
  · intro h
    rw [useQueryParam_history, h]
    exact ⟨by simp [commit, entryCount], rfl⟩

/-- Witness for C2 amended with the default replace mode. -/
theorem C2_init_commits_witness :
    entryCount (useQueryParam ⟨strB "/blog", []⟩ ⟨[], strB "/blog"⟩
      (strB "tag") .undef {}).2 = entryCount ⟨[], strB "/blog"⟩ :=
  (C2_init_commits ⟨strB "/blog", []⟩ ⟨[], strB "/blog"⟩ (strB "tag")
    .undef {}).2.1 (by decide)

/-- C8: the setter's history commit follows the merged `historyState`
option: `push` adds exactly one entry and keeps the pre-change URL on top
of the back stack; `replace` (the default when unset) keeps the entry
count and overwrites the current entry with the target. -/
theorem C8_history_mode (loc : Location) (hist : History) (key : Bytes)
    (options : BindingOptions) (newValue : QueryValue)
    (override : BindingOptions) :
    ((mergeOptions options override).historyState.getD .replace = .push →
      entryCount (setQueryParam loc hist key options newValue override).2
        = entryCount hist + 1
      ∧ (setQueryParam loc hist key options newValue override).2.back.head?
          = some hist.current)
    ∧ ((mergeOptions options override).historyState.getD .replace
        = .replace →
      entryCount (setQueryParam loc hist key options newValue override).2
        = entryCount hist
      ∧ (setQueryParam loc hist key options newValue override).2.current
          = (handleParam loc key newValue
              (mergeOptions options override)).target) := by
  constructor
  · intro h
    rw [setQueryParam_history, h]
    exact ⟨by simp [commit, entryCount], rfl⟩
  · intro h
    rw [setQueryParam_history, h]
    exact ⟨rfl, rfl⟩

/-- Witness for C8 with a per-call push override over default options. -/
theorem C8_history_mode_witness :
    entryCount (setQueryParam ⟨strB "/blog", []⟩ ⟨[], strB "/blog"⟩
      (strB "tag") {} (.str (strB "css"))
      { historyState := some .push }).2
      = entryCount (⟨[], strB "/blog"⟩ : History) + 1
    ∧ (setQueryParam ⟨strB "/blog", []⟩ ⟨[], strB "/blog"⟩ (strB "tag") {}
        (.str (strB "css")) { historyState := some .push }).2.back.head?
      = some (strB "/blog") :=
  (C8_history_mode ⟨strB "/blog", []⟩ ⟨[], strB "/blog"⟩ (strB "tag") {}
    (.str (strB "css")) { historyState := some .push }).1 (by decide)

end UseQueryParam
